import Mathlib

set_option maxHeartbeats 1000000

/-!
Verification development for the indexing / state-synchronization core of
walteh/tftab: versioned document store, dependency-aware job scheduler,
and directory walker, together with the `TextDocumentDidChange` handler
(`internal/lsp/langserver/handlers/did_change.go`).

The handler is embedded directly from its Go source.  The DocumentStore,
JobStore and Walker implementations are not part of the provided sources
(only their callers and tests are), so they are modelled from the spec,
as marked on each definition.
-/

deriving instance DecidableEq for Except

/-! ## Document store -/

/-- Modelled from the spec: a versioned text buffer; attributes `text`
(full contents), `languageID`, and a monotonically increasing integer
`version` (src only shows the consumers of this type). -/
structure Document where
  text : String
  languageID : String
  version : Int
deriving DecidableEq, Repr

/-- Modelled from the spec: failure kind of document lookups ("NotFound |
lookup of absent document/job | surfaced to caller"). -/
inductive DocErr
  | notFound
deriving DecidableEq, Repr

/-- Modelled from the spec: DocumentStore, in-memory buffers keyed by a
normalized document handle (here a string). -/
structure DocStore where
  docs : List (String × Document)
deriving DecidableEq, Repr

def emptyStore : DocStore := ⟨[]⟩

/-- Modelled from the spec: `GetDocument(handle)` returns the current
Document or a NotFound failure. -/
def getDocument (st : DocStore) (h : String) : Except DocErr Document :=
  match st.docs.find? (fun p => p.1 == h) with
  | some p => .ok p.2
  | none => .error .notFound

/-- Replaces the binding of handle `h` with document `d`. -/
def setDoc (st : DocStore) (h : String) (d : Document) : DocStore :=
  ⟨st.docs.map (fun p => if p.1 == h then (h, d) else p)⟩

/-- Modelled from the spec: `OpenDocument` creates the entry; opening an
already-open document replaces its content. -/
def openDocument (st : DocStore) (h : String) (text languageID : String)
    (version : Int) : DocStore :=
  match getDocument st h with
  | .ok _ => setDoc st h ⟨text, languageID, version⟩
  | .error _ => ⟨st.docs ++ [(h, ⟨text, languageID, version⟩)]⟩

/-- Effect of one update on a single document: accepted only when the new
version is strictly greater than the current one. -/
def updateDoc (d : Document) (newText : String) (newVersion : Int) : Document :=
  if d.version < newVersion then ⟨newText, d.languageID, newVersion⟩ else d

/-- Modelled from the spec: `UpdateDocument(handle, newText, newVersion)`
validates `newVersion > current.version`; if not, returns success with no
mutation; on acceptance replaces text and version. -/
def updateDocument (st : DocStore) (h : String) (newText : String)
    (newVersion : Int) : Except DocErr DocStore :=
  match getDocument st h with
  | .error e => .error e
  | .ok d =>
    if d.version < newVersion then
      .ok (setDoc st h ⟨newText, d.languageID, newVersion⟩)
    else
      .ok st

/-- Runs a sequence of `updateDocument` submissions `(version, text)` on
one handle, ignoring (impossible, once opened) lookup failures. -/
def applyUpdates (st : DocStore) (h : String) : List (Int × String) → DocStore
  | [] => st
  | (v, t) :: rest =>
    match updateDocument st h t v with
    | .ok st' => applyUpdates st' h rest
    | .error _ => applyUpdates st h rest

/-- Document-level view of a submission sequence. -/
def applyDocUpdates (d : Document) : List (Int × String) → Document
  | [] => d
  | (v, t) :: rest => applyDocUpdates (updateDoc d t v) rest

/-- Maximum of a starting version and all submitted versions. -/
def maxFrom (v : Int) (subs : List (Int × String)) : Int :=
  subs.foldl (fun a p => max a p.1) v

/-- Text of the earliest submission carrying version `m`, if any. -/
def firstTextAt (m : Int) (subs : List (Int × String)) : Option String :=
  (subs.find? (fun p => p.1 == m)).map Prod.snd

/-! ## Change handler, embedded from
`internal/lsp/langserver/handlers/did_change.go` -/

/-- Observable calls the handler makes, in program order. -/
inductive HEvent
  | getDocumentEv
  | applyChangesEv
  | updateDocumentEv
  | documentChangedEv
  | waitForJobsEv
deriving DecidableEq, Repr

/-- Errors the handler can return (each Go `return err` site). -/
inductive HandlerError
  | storeErr (e : DocErr)
  | editErr
  | indexErr
  | waitErr
deriving DecidableEq, Repr

/-- Collaborators of the handler that are outside this core (text-edit
application, indexer, job waiting), kept opaque as in the Go service. -/
structure HandlerDeps (χ : Type) where
  applyChanges : String → List χ → Except Unit String
  documentChanged : String → Except Unit (List Nat)
  waitForJobs : List Nat → Option Unit

/-- Result of one handler invocation: returned error (none = nil), the
document store afterwards, and the trace of collaborator calls. -/
structure HResult where
  err : Option HandlerError
  store : DocStore
  events : List HEvent
deriving DecidableEq, Repr

/-- Embedding of `(svc *service) TextDocumentDidChange`: looks the
document up, drops stale versions (`newVersion <= doc.Version`) with a
nil return, otherwise applies the edits, stores the new text/version,
schedules indexing jobs and waits for them. -/
def textDocumentDidChange {χ : Type} (deps : HandlerDeps χ) (st : DocStore)
    (uri : String) (version : Int) (contentChanges : List χ) : HResult :=
  match getDocument st uri with
  | .error e => ⟨some (.storeErr e), st, [.getDocumentEv]⟩
  | .ok doc =>
    if version ≤ doc.version then
      ⟨none, st, [.getDocumentEv]⟩
    else
      match deps.applyChanges doc.text contentChanges with
      | .error _ => ⟨some .editErr, st, [.getDocumentEv, .applyChangesEv]⟩
      | .ok newText =>
        match updateDocument st uri newText version with
        | .error e =>
          ⟨some (.storeErr e), st,
            [.getDocumentEv, .applyChangesEv, .updateDocumentEv]⟩
        | .ok st' =>
          match deps.documentChanged uri with
          | .error _ =>
            ⟨some .indexErr, st',
              [.getDocumentEv, .applyChangesEv, .updateDocumentEv,
                .documentChangedEv]⟩
          | .ok jobIds =>
            ⟨(deps.waitForJobs jobIds).map (fun _ => .waitErr), st',
              [.getDocumentEv, .applyChangesEv, .updateDocumentEv,
                .documentChangedEv, .waitForJobsEv]⟩

/-! ## Job scheduler (JobStore) -/

/-- Modelled from the spec: job state machine `Queued → Running → Done`;
`Running → Errored`; `Queued|Running → Cancelled`. -/
inductive JobState
  | queued
  | running
  | done
  | errored
  | cancelled
deriving DecidableEq, Repr

/-- Modelled from the spec: a Job with its scheduler-visible bookkeeping.
The opaque payload is abstracted by the outcome `succeeds` of executing
it; `runStart`/`doneTime` are logical-clock timestamps recorded when the
job enters Running and when it reaches Done/Errored after running. -/
structure JobEntry where
  id : Nat
  deps : List Nat
  priority : Nat
  succeeds : Bool
  state : JobState
  runStart : Option Nat
  doneTime : Option Nat
deriving DecidableEq, Repr

/-- Modelled from the spec: JobStore internal state — the job table (in
insertion order), the next fresh ID, and a logical clock. -/
structure Sched where
  entries : List JobEntry
  nextId : Nat
  clock : Nat
deriving DecidableEq, Repr

def emptySched : Sched := ⟨[], 0, 0⟩

def lookupJob (s : Sched) (i : Nat) : Option JobEntry :=
  s.entries.find? (fun e => e.id == i)

/-- Rewrites the entry with id `i` through `f` (ids are preserved by all
updaters used below). -/
def setEntry (s : Sched) (i : Nat) (f : JobEntry → JobEntry) : Sched :=
  ⟨s.entries.map (fun e => if e.id == i then f e else e), s.nextId, s.clock⟩

def tick (s : Sched) : Sched :=
  ⟨s.entries, s.nextId, s.clock + 1⟩

def startJob (c : Nat) (e : JobEntry) : JobEntry :=
  { e with state := .running, runStart := some c }

def finishJob (c : Nat) (e : JobEntry) : JobEntry :=
  { e with state := if e.succeeds then .done else .errored, doneTime := some c }

def propagateJob (e : JobEntry) : JobEntry :=
  { e with state := .errored }

def depsDone (s : Sched) (ds : List Nat) : Bool :=
  ds.all (fun d =>
    match lookupJob s d with
    | some a => a.state == .done
    | none => false)

def hasFailedDep (s : Sched) (ds : List Nat) : Bool :=
  ds.any (fun d =>
    match lookupJob s d with
    | some a => a.state == .errored || a.state == .cancelled
    | none => false)

/-- Modelled from the spec: Enqueue failure kinds (`DependencyCycle` or
`UnknownDependency`, returned synchronously, nothing is scheduled). -/
inductive EnqErr
  | unknownDependency
  | dependencyCycle
deriving DecidableEq, Repr

/-- One round of Kahn-style elimination: keeps the nodes that still have
a dependency among the remaining nodes. -/
def kahnRound (g : List (Nat × List Nat)) : List (Nat × List Nat) :=
  let ids := g.map Prod.fst
  g.filter (fun n => n.2.any (fun d => ids.contains d))

/-- Fueled Kahn elimination: true when every node can be removed, i.e.
the dependency graph is acyclic. -/
def acyclicFuel : Nat → List (Nat × List Nat) → Bool
  | _, [] => true
  | 0, _ => false
  | fuel + 1, g =>
    let g' := kahnRound g
    if g'.length < g.length then acyclicFuel fuel g' else false

def acyclicCheck (g : List (Nat × List Nat)) : Bool :=
  acyclicFuel g.length g

def depGraph (s : Sched) (deps : List Nat) : List (Nat × List Nat) :=
  s.entries.map (fun e => (e.id, e.deps)) ++ [(s.nextId, deps)]

/-- Modelled from the spec: `Enqueue(job)` assigns an ID, validates that
every dependency ID already exists and that the resulting graph is
acyclic; on failure returns the store unchanged with the synchronous
error, on success appends the new Queued job. -/
def enqueue (s : Sched) (deps : List Nat) (priority : Nat) (succeeds : Bool) :
    Sched × Except EnqErr Nat :=
  if deps.all (fun d => (lookupJob s d).isSome) then
    if acyclicCheck (depGraph s deps) then
      (⟨s.entries ++ [⟨s.nextId, deps, priority, succeeds, .queued, none, none⟩],
        s.nextId + 1, s.clock⟩,
        .ok s.nextId)
    else
      (s, .error .dependencyCycle)
  else
    (s, .error .unknownDependency)

/-- Modelled from the spec: one interleaved scheduler transition — a
worker claims a Queued job whose dependencies are all Done, a Running
job's payload returns (Done on success, Errored on failure), or a
Queued job with a failed dependency is marked Errored without running. -/
inductive ExecStep : Sched → Sched → Prop
  | start {s : Sched} {i : Nat} {e : JobEntry} :
      lookupJob s i = some e → e.state = .queued → depsDone s e.deps = true →
      ExecStep s (tick (setEntry s i (startJob s.clock)))
  | finish {s : Sched} {i : Nat} {e : JobEntry} :
      lookupJob s i = some e → e.state = .running →
      ExecStep s (tick (setEntry s i (finishJob s.clock)))
  | propagate {s : Sched} {i : Nat} {e : JobEntry} :
      lookupJob s i = some e → e.state = .queued → hasFailedDep s e.deps = true →
      ExecStep s (setEntry s i propagateJob)

/-- States reachable from `s0` by enqueuing jobs and scheduler steps. -/
inductive Reach (s0 : Sched) : Sched → Prop
  | refl : Reach s0 s0
  | enq {s : Sched} {deps : List Nat} {p : Nat} {b : Bool} {i : Nat} :
      Reach s0 s → (enqueue s deps p b).2 = .ok i → Reach s0 (enqueue s deps p b).1
  | step {s s' : Sched} : Reach s0 s → ExecStep s s' → Reach s0 s'

/-- Executable quiescence check: no worker transition is enabled — no
job is Running and no Queued job is ready to start or to receive a
propagated failure. -/
def isFinal (s : Sched) : Bool :=
  s.entries.all (fun e =>
    !(e.state == .running) &&
    !(e.state == .queued && (depsDone s e.deps || hasFailedDep s e.deps)))

/-- Transitive dependency: `DependsOn s b a` means job `b` depends on
job `a` through a chain of dependency edges of `s`. -/
inductive DependsOn (s : Sched) : Nat → Nat → Prop
  | direct {b a : Nat} {eb : JobEntry} :
      lookupJob s b = some eb → a ∈ eb.deps → DependsOn s b a
  | trans {b c a : Nat} {eb : JobEntry} :
      lookupJob s b = some eb → c ∈ eb.deps → DependsOn s c a → DependsOn s b a

/-- Scheduler invariant, per entry: Done entries carry a doneTime below
the clock; a recorded runStart is below the clock and certifies that at
its claim time every dependency was Done with an earlier doneTime;
Done/Running entries have a runStart; nothing is Cancelled (no teardown
is modelled); every dependency refers to an existing job. -/
def EntryInv (s : Sched) (e : JobEntry) : Prop :=
  (e.state = .done → ∃ u, e.doneTime = some u ∧ u < s.clock)
  ∧ (∀ t, e.runStart = some t →
      t < s.clock ∧ ∀ d ∈ e.deps, ∃ a, lookupJob s d = some a ∧ a.state = .done
        ∧ ∃ u, a.doneTime = some u ∧ u ≤ t)
  ∧ ((e.state = .done ∨ e.state = .running) → e.runStart.isSome = true)
  ∧ e.state ≠ .cancelled
  ∧ (∀ d ∈ e.deps, ∃ a, lookupJob s d = some a)

/-- Scheduler invariant: every entry satisfies `EntryInv`. -/
def SchedInv (s : Sched) : Prop := ∀ i e, lookupJob s i = some e → EntryInv s e

/-! Concrete scheduler runs used in the claims' scenarios: `demo` runs
A (no deps) then B (depending on A) to completion; `fail` runs A with a
failing payload and propagates the failure to B and to C (which depends
on B). -/

def demoS1 : Sched := (enqueue emptySched [] 1 true).1
def demoS2 : Sched := (enqueue demoS1 [0] 1 true).1
def demoS3 : Sched := tick (setEntry demoS2 0 (startJob demoS2.clock))
def demoS4 : Sched := tick (setEntry demoS3 0 (finishJob demoS3.clock))
def demoS5 : Sched := tick (setEntry demoS4 1 (startJob demoS4.clock))
def demoS6 : Sched := tick (setEntry demoS5 1 (finishJob demoS5.clock))

def failS1 : Sched := (enqueue emptySched [] 1 false).1
def failS2 : Sched := (enqueue failS1 [0] 1 true).1
def failS3 : Sched := (enqueue failS2 [1] 1 true).1
def failS4 : Sched := tick (setEntry failS3 0 (startJob failS3.clock))
def failS5 : Sched := tick (setEntry failS4 0 (finishJob failS4.clock))
def failS6 : Sched := setEntry failS5 1 propagateJob
def failS7 : Sched := setEntry failS6 2 propagateJob

/-! ## WaitForJobs -/

def depsOf (s : Sched) (i : Nat) : List Nat :=
  match lookupJob s i with
  | some e => e.deps
  | none => []

def isTerminalState (st : JobState) : Bool :=
  st == .done || st == .errored || st == .cancelled

def jobTerminal (s : Sched) (i : Nat) : Bool :=
  match lookupJob s i with
  | some e => isTerminalState e.state
  | none => true

def jobDone (s : Sched) (i : Nat) : Bool :=
  match lookupJob s i with
  | some e => e.state == .done
  | none => true

/-- Adds to `acc` every dependency of a member of `acc` not already
present. -/
def closureStep (s : Sched) (acc : List Nat) : List Nat :=
  acc ++ (acc.foldr (fun i r => depsOf s i ++ r) []).filter (fun d => !acc.contains d)

def closureIter (s : Sched) : Nat → List Nat → List Nat
  | 0, acc => acc
  | fuel + 1, acc => closureIter s fuel (closureStep s acc)

/-- Computes the transitive dependency closure of `ids` (with fuel large
enough to stabilize on any scheduler state). -/
def closureList (s : Sched) (ids : List Nat) : List Nat :=
  closureIter s ((s.entries.map (fun e => e.deps.length)).sum + ids.length + 1) ids

/-- Membership in the transitive dependency closure of `ids`. -/
inductive InClosure (s : Sched) (ids : List Nat) : Nat → Prop
  | base {i : Nat} : i ∈ ids → InClosure s ids i
  | dep {i d : Nat} : InClosure s ids i → d ∈ depsOf s i → InClosure s ids d

inductive WaitRes
  | ok
  | jobsFailed
  | ctxCancelled
deriving DecidableEq, Repr

/-- Modelled from the spec: the observation `WaitForJobs` makes of the
scheduler — `none` while some job in the transitive closure of `ids` is
not yet terminal (the caller stays blocked), otherwise the aggregated
result: `ok` when all ended Done, `jobsFailed` when any ended Errored
or Cancelled. -/
def waitOutcome (s : Sched) (ids : List Nat) : Option WaitRes :=
  let r := closureList s ids
  if closureStep s r = r then
    if r.all (jobTerminal s) then
      some (if r.all (jobDone s) then .ok else .jobsFailed)
    else none
  else none

/-- Modelled from the spec: `WaitForJobs(ctx, ids...)`; a cancelled
context makes the call return a cancellation failure without touching
the scheduler; otherwise the call observes the scheduler (also without
touching it). -/
def waitForJobs (ctxCancelled : Bool) (s : Sched) (ids : List Nat) :
    Option WaitRes × Sched :=
  if ctxCancelled then (some .ctxCancelled, s) else (waitOutcome s ids, s)

/-! ## Walker -/

/-- Directory tree presented by the filesystem abstraction: a name and
the subdirectories. -/
inductive FSTree
  | node (name : String) (subs : List FSTree)

def FSTree.name : FSTree → String
  | .node n _ => n

def FSTree.subs : FSTree → List FSTree
  | .node _ s => s

/-- Conventionally-hidden directory name: starts with a dot. -/
def isHiddenName (n : String) : Bool :=
  match n.data with
  | [] => false
  | c :: _ => c == '.'

/-- Modelled from the spec: a subdirectory is entered unless its base
name matches the ignore list (exact, case-sensitive) or it is
conventionally hidden. -/
def keepDir (ignore : List String) (t : FSTree) : Bool :=
  !(ignore.contains t.name) && !(isHiddenName t.name)

mutual

/-- Modelled from the spec: `Walk` recursively traverses the tree,
recording (as the WalkerCollector does) the path of every directory it
visits and skipping ignored subdirectories entirely. -/
def walk (ignore : List String) (pre : List String) : FSTree → List (List String)
  | .node n subs => (pre ++ [n]) :: walkList ignore (pre ++ [n]) subs

/-- Traverses the subdirectories in order, entering only those that pass
the ignore filter. -/
def walkList (ignore : List String) (pre : List String) : List FSTree → List (List String)
  | [] => []
  | t :: ts =>
    (if keepDir ignore t then walk ignore pre t else []) ++ walkList ignore pre ts

end

/-- Chains of enterable subdirectories below `t`: each component is the
name of a child passing the ignore filter. -/
inductive ChainOk (ig : List String) : FSTree → List String → Prop
  | nil {t : FSTree} : ChainOk ig t []
  | cons {t c : FSTree} {rest : List String} :
      c ∈ t.subs → keepDir ig c = true → ChainOk ig c rest →
      ChainOk ig t (c.name :: rest)

/-- Concrete collaborator bundle used to instantiate the handler in
closed statements. -/
def trivialDeps : HandlerDeps Unit :=
  ⟨fun _ _ => .ok "", fun _ => .ok [], fun _ => none⟩

/-! ## Document store lemmas -/

theorem find_map_set (l : List (String × Document)) (h : String) (d : Document) :
    (l.map (fun p => if p.1 == h then (h, d) else p)).find? (fun p => p.1 == h)
      = (l.find? (fun p => p.1 == h)).map (fun _ => (h, d)) := by
  induction l with
  | nil => simp
  | cons p l ih =>
    simp only [List.map_cons]
    by_cases hp : (p.1 == h) = true
    · simp [List.find?, hp]
    · rw [if_neg hp]
      rw [show List.find? (fun p => p.1 == h)
            (p :: List.map (fun p => if (p.1 == h) = true then (h, d) else p) l)
          = List.find? (fun p => p.1 == h)
            (List.map (fun p => if (p.1 == h) = true then (h, d) else p) l)
          from List.find?_cons_of_neg _ hp]
      rw [show List.find? (fun p => p.1 == h) (p :: l)
          = List.find? (fun p => p.1 == h) l from List.find?_cons_of_neg _ hp]
      exact ih

theorem getDocument_setDoc_same (st : DocStore) (h : String) (d0 d : Document)
    (hget : getDocument st h = .ok d0) :
    getDocument (setDoc st h d) h = .ok d := by
  unfold getDocument at hget ⊢
  unfold setDoc
  simp only [find_map_set]
  cases hfind : st.docs.find? (fun p => p.1 == h) with
  | none => rw [hfind] at hget; exact absurd hget (by simp)
  | some p => simp

theorem applyUpdates_lift (subs : List (Int × String)) (st : DocStore)
    (h : String) (d : Document) (hget : getDocument st h = .ok d) :
    getDocument (applyUpdates st h subs) h = .ok (applyDocUpdates d subs) := by
  induction subs generalizing st d with
  | nil => exact hget
  | cons p rest ih =>
    obtain ⟨v, t⟩ := p
    have hupd : updateDocument st h t v
        = if d.version < v then .ok (setDoc st h ⟨t, d.languageID, v⟩) else .ok st := by
      unfold updateDocument
      rw [hget]
    have hA : applyUpdates st h ((v, t) :: rest)
        = match updateDocument st h t v with
          | .ok st' => applyUpdates st' h rest
          | .error _ => applyUpdates st h rest := rfl
    by_cases hv : d.version < v
    · rw [hA, hupd, if_pos hv]
      have hnext : getDocument (setDoc st h ⟨t, d.languageID, v⟩) h
          = .ok ⟨t, d.languageID, v⟩ := getDocument_setDoc_same st h d _ hget
      have hD : applyDocUpdates d ((v, t) :: rest)
          = applyDocUpdates ⟨t, d.languageID, v⟩ rest := by
        show applyDocUpdates (updateDoc d t v) rest = _
        unfold updateDoc
        rw [if_pos hv]
      rw [hD]
      exact ih _ _ hnext
    · rw [hA, hupd, if_neg hv]
      have hD : applyDocUpdates d ((v, t) :: rest) = applyDocUpdates d rest := by
        show applyDocUpdates (updateDoc d t v) rest = _
        unfold updateDoc
        rw [if_neg hv]
      rw [hD]
      exact ih _ _ hget

theorem maxFrom_cons (v a : Int) (t : String) (l : List (Int × String)) :
    maxFrom v ((a, t) :: l) = maxFrom (max v a) l := rfl

theorem le_maxFrom (l : List (Int × String)) (v : Int) : v ≤ maxFrom v l := by
  induction l generalizing v with
  | nil => exact le_refl v
  | cons p l ih =>
    obtain ⟨a, t⟩ := p
    rw [maxFrom_cons]
    exact le_trans (le_max_left v a) (ih (max v a))

theorem firstTextAt_cons (m a : Int) (t : String) (l : List (Int × String)) :
    firstTextAt m ((a, t) :: l)
      = if a = m then some t else firstTextAt m l := by
  unfold firstTextAt
  by_cases ha : a = m
  · rw [List.find?_cons_of_pos _ (by simpa using ha), if_pos ha]
    rfl
  · rw [List.find?_cons_of_neg _ (by simpa using ha), if_neg ha]

theorem applyDocUpdates_spec (subs : List (Int × String)) (d : Document) :
    (applyDocUpdates d subs).version = maxFrom d.version subs
    ∧ (applyDocUpdates d subs).languageID = d.languageID
    ∧ (maxFrom d.version subs ≤ d.version → applyDocUpdates d subs = d)
    ∧ (d.version < maxFrom d.version subs →
        firstTextAt (maxFrom d.version subs) subs
          = some (applyDocUpdates d subs).text) := by
  induction subs generalizing d with
  | nil =>
    refine ⟨rfl, rfl, fun _ => rfl, fun hlt => absurd hlt (by simp [maxFrom])⟩
  | cons p rest ih =>
    obtain ⟨v, t⟩ := p
    have hstep : applyDocUpdates d ((v, t) :: rest)
        = applyDocUpdates (updateDoc d t v) rest := rfl
    rw [hstep, maxFrom_cons]
    by_cases hv : d.version < v
    · have hd' : updateDoc d t v = ⟨t, d.languageID, v⟩ := by
        rw [updateDoc, if_pos hv]
      have hmax : max d.version v = v := max_eq_right (le_of_lt hv)
      rw [hd', hmax]
      obtain ⟨ihv, ihl, ihle, ihlt⟩ := ih ⟨t, d.languageID, v⟩
      simp only at ihv ihl ihle ihlt
      have hvle : v ≤ maxFrom v rest := le_maxFrom rest v
      refine ⟨ihv, ihl, ?_, ?_⟩
      · intro hle
        exact absurd (le_trans hvle hle) (not_le.mpr hv)
      · intro _
        rw [firstTextAt_cons]
        by_cases hvm : v = maxFrom v rest
        · rw [if_pos hvm]
          have : applyDocUpdates (⟨t, d.languageID, v⟩ : Document) rest
              = ⟨t, d.languageID, v⟩ := ihle (le_of_eq hvm.symm)
          rw [this]
        · rw [if_neg hvm]
          exact ihlt (lt_of_le_of_ne hvle hvm)
    · have hd' : updateDoc d t v = d := by
        rw [updateDoc, if_neg hv]
      have hmax : max d.version v = d.version := max_eq_left (le_of_not_lt hv)
      rw [hd', hmax]
      obtain ⟨ihv, ihl, ihle, ihlt⟩ := ih d
      refine ⟨ihv, ihl, ihle, ?_⟩
      · intro hlt
        rw [firstTextAt_cons]
        have hvm : ¬ v = maxFrom d.version rest := by
          intro he
          exact absurd (he ▸ hlt) (not_lt.mpr (le_of_not_lt hv))
        rw [if_neg hvm]
        exact ihlt hlt

theorem getDocument_open_empty (h t lid : String) (v : Int) :
    getDocument (openDocument emptyStore h t lid v) h = .ok ⟨t, lid, v⟩ := by
  unfold openDocument getDocument emptyStore
  simp

/-- Handler behaviour on a stale version: nil return, untouched store,
no collaborator invoked after the lookup (did_change.go lines 37-42). -/
theorem didChange_stale {χ : Type} (deps : HandlerDeps χ) (st : DocStore)
    (uri : String) (d : Document) (v : Int) (chs : List χ)
    (hget : getDocument st uri = .ok d) (hle : v ≤ d.version) :
    textDocumentDidChange deps st uri v chs = ⟨none, st, [.getDocumentEv]⟩ := by
  unfold textDocumentDidChange
  rw [hget]
  simp [hle]

/-- Handler behaviour when the document was never opened: the NotFound
failure is returned at once (did_change.go lines 27-30). -/
theorem didChange_notFound {χ : Type} (deps : HandlerDeps χ) (st : DocStore)
    (uri : String) (v : Int) (chs : List χ) (e : DocErr)
    (hget : getDocument st uri = .error e) :
    textDocumentDidChange deps st uri v chs = ⟨some (.storeErr e), st, [.getDocumentEv]⟩ := by
  unfold textDocumentDidChange
  rw [hget]

/-! ## Claim theorems: document store and change handler -/

/-- C5: every update (direct `UpdateDocument` call or change
notification through the handler) carrying a version less than or equal
to the stored one is ignored — the store is unchanged and the operation
returns success, never an error. -/
theorem C5_stale_version_ignored :
    (∀ (st : DocStore) (h newText : String) (d : Document) (v : Int),
      getDocument st h = .ok d → v ≤ d.version →
      updateDocument st h newText v = .ok st)
    ∧ (∀ (χ : Type) (deps : HandlerDeps χ) (st : DocStore) (uri : String)
        (d : Document) (v : Int) (chs : List χ),
      getDocument st uri = .ok d → v ≤ d.version →
      textDocumentDidChange deps st uri v chs = ⟨none, st, [.getDocumentEv]⟩) := by
  constructor
  · intro st h newText d v hget hle
    unfold updateDocument
    rw [hget]
    simp [not_lt.mpr hle]
  · intro χ deps st uri d v chs hget hle
    exact didChange_stale deps st uri d v chs hget hle

/-- Witness for C5 at a concrete store: document open at version 1,
update resubmitted at version 1. -/
theorem C5_stale_version_ignored_witness :
    updateDocument (openDocument emptyStore "u" "a" "L" 1) "u" "c" 1
        = .ok (openDocument emptyStore "u" "a" "L" 1)
    ∧ textDocumentDidChange trivialDeps (openDocument emptyStore "u" "a" "L" 1) "u" 1 []
        = ⟨none, openDocument emptyStore "u" "a" "L" 1, [.getDocumentEv]⟩ :=
  ⟨C5_stale_version_ignored.1 _ "u" "c" ⟨"a", "L", 1⟩ 1 (by decide) (by decide),
   C5_stale_version_ignored.2 Unit trivialDeps _ "u" ⟨"a", "L", 1⟩ 1 [] (by decide) (by decide)⟩

/-- C10: on a stale version the handler returns nil before applying the
content changes — the store is untouched and ApplyChanges,
UpdateDocument, Indexer.DocumentChanged and WaitForJobs are never
invoked. -/
theorem C10_stale_short_circuits (χ : Type) (deps : HandlerDeps χ) (st : DocStore)
    (uri : String) (d : Document) (v : Int) (chs : List χ)
    (hget : getDocument st uri = .ok d) (hle : v ≤ d.version) :
    (textDocumentDidChange deps st uri v chs).err = none
    ∧ (textDocumentDidChange deps st uri v chs).store = st
    ∧ HEvent.applyChangesEv ∉ (textDocumentDidChange deps st uri v chs).events
    ∧ HEvent.updateDocumentEv ∉ (textDocumentDidChange deps st uri v chs).events
    ∧ HEvent.documentChangedEv ∉ (textDocumentDidChange deps st uri v chs).events
    ∧ HEvent.waitForJobsEv ∉ (textDocumentDidChange deps st uri v chs).events := by
  rw [didChange_stale deps st uri d v chs hget hle]
  refine ⟨rfl, rfl, ?_, ?_, ?_, ?_⟩ <;> simp

/-- Witness for C10 at a concrete store and stale change. -/
theorem C10_stale_short_circuits_witness :
    (textDocumentDidChange trivialDeps (openDocument emptyStore "u" "a" "L" 3) "u" 2 []).err = none
    ∧ (textDocumentDidChange trivialDeps (openDocument emptyStore "u" "a" "L" 3) "u" 2 []).store
        = openDocument emptyStore "u" "a" "L" 3
    ∧ HEvent.applyChangesEv
        ∉ (textDocumentDidChange trivialDeps (openDocument emptyStore "u" "a" "L" 3) "u" 2 []).events
    ∧ HEvent.updateDocumentEv
        ∉ (textDocumentDidChange trivialDeps (openDocument emptyStore "u" "a" "L" 3) "u" 2 []).events
    ∧ HEvent.documentChangedEv
        ∉ (textDocumentDidChange trivialDeps (openDocument emptyStore "u" "a" "L" 3) "u" 2 []).events
    ∧ HEvent.waitForJobsEv
        ∉ (textDocumentDidChange trivialDeps (openDocument emptyStore "u" "a" "L" 3) "u" 2 []).events :=
  C10_stale_short_circuits Unit trivialDeps _ "u" ⟨"a", "L", 3⟩ 2 [] (by decide) (by decide)

/-- C9: looking up an absent document yields a NotFound failure, and a
change notification for a never-opened document makes the handler
return that failure immediately — no mutation, no collaborator call
after the lookup. -/
theorem C9_notFound_surfaced :
    (∀ (st : DocStore) (h : String),
      st.docs.find? (fun p => p.1 == h) = none →
      getDocument st h = .error .notFound)
    ∧ (∀ (χ : Type) (deps : HandlerDeps χ) (st : DocStore) (uri : String)
        (v : Int) (chs : List χ) (e : DocErr),
      getDocument st uri = .error e →
      textDocumentDidChange deps st uri v chs
        = ⟨some (.storeErr e), st, [.getDocumentEv]⟩) := by
  constructor
  · intro st h hfind
    unfold getDocument
    rw [hfind]
  · intro χ deps st uri v chs e hget
    exact didChange_notFound deps st uri v chs e hget

/-- Witness for C9: a change notification against the empty store. -/
theorem C9_notFound_surfaced_witness :
    getDocument emptyStore "u" = .error .notFound
    ∧ textDocumentDidChange trivialDeps emptyStore "u" 1 []
        = ⟨some (.storeErr .notFound), emptyStore, [.getDocumentEv]⟩ :=
  ⟨C9_notFound_surfaced.1 emptyStore "u" (by decide),
   C9_notFound_surfaced.2 Unit trivialDeps emptyStore "u" 1 [] .notFound (by decide)⟩

/-- C6 counterexample: open a document at version 0 with text "a" and
submit a single update carrying version 0 and text "c".  The maximum
version ever submitted is 0 and its (unique) submission carried text
"c", yet the stored text stays "a" — so the stored text does not equal
the text of the submission that carried the maximum version. -/
theorem C6_counterexample :
    getDocument (applyUpdates (openDocument emptyStore "u" "a" "L" 0) "u" [(0, "c")]) "u"
        = .ok ⟨"a", "L", 0⟩
    ∧ maxFrom 0 [(0, "c")] = 0
    ∧ firstTextAt 0 [(0, "c")] = some "c"
    ∧ "a" ≠ "c" := by
  decide

/-- C6 (amended): after any sequence of updates on an opened document,
the stored version is the maximum of the opening version and all
submitted versions; when some submitted version exceeds the opening
version the stored text is the text of the earliest submission carrying
that maximum, otherwise the opening text and version are retained.  In
particular the claim's scenario (open at 0 "a", update to 1 "b",
resubmit 0 "c") ends at version 1 with text "b". -/
theorem C6_version_max_amended :
    (∀ (h t0 lid : String) (v0 : Int) (subs : List (Int × String)) (d : Document),
      getDocument (applyUpdates (openDocument emptyStore h t0 lid v0) h subs) h = .ok d →
      d.version = maxFrom v0 subs
      ∧ d.languageID = lid
      ∧ (maxFrom v0 subs ≤ v0 → d = ⟨t0, lid, v0⟩)
      ∧ (v0 < maxFrom v0 subs → firstTextAt (maxFrom v0 subs) subs = some d.text))
    ∧ getDocument (applyUpdates (openDocument emptyStore "u" "a" "L" 0) "u"
        [(1, "b"), (0, "c")]) "u" = .ok ⟨"b", "L", 1⟩ := by
  constructor
  · intro h t0 lid v0 subs d hget
    have hopen := getDocument_open_empty h t0 lid v0
    have hlift := applyUpdates_lift subs _ h ⟨t0, lid, v0⟩ hopen
    rw [hget] at hlift
    have hd : d = applyDocUpdates ⟨t0, lid, v0⟩ subs := by
      cases hlift
      rfl
    obtain ⟨hv, hl, hle, hlt⟩ := applyDocUpdates_spec subs ⟨t0, lid, v0⟩
    subst hd
    exact ⟨hv, hl, hle, hlt⟩
  · decide

/-! ## Walker lemmas -/

theorem mem_walkList (ig pre : List String) (ts : List FSTree) (p : List String) :
    p ∈ walkList ig pre ts ↔ ∃ c ∈ ts, keepDir ig c = true ∧ p ∈ walk ig pre c := by
  induction ts with
  | nil => simp [walkList]
  | cons t ts ih =>
    rw [walkList]
    by_cases hk : keepDir ig t = true
    · rw [if_pos hk, List.mem_append, ih]
      constructor
      · rintro (hp | ⟨c, hc, hkc, hp⟩)
        · exact ⟨t, List.mem_cons_self t ts, hk, hp⟩
        · exact ⟨c, List.mem_cons_of_mem t hc, hkc, hp⟩
      · rintro ⟨c, hc, hkc, hp⟩
        rcases List.mem_cons.mp hc with rfl | hc'
        · exact Or.inl hp
        · exact Or.inr ⟨c, hc', hkc, hp⟩
    · rw [if_neg hk, List.nil_append, ih]
      constructor
      · rintro ⟨c, hc, hkc, hp⟩
        exact ⟨c, List.mem_cons_of_mem t hc, hkc, hp⟩
      · rintro ⟨c, hc, hkc, hp⟩
        rcases List.mem_cons.mp hc with rfl | hc'
        · exact absurd hkc hk
        · exact ⟨c, hc', hkc, hp⟩

theorem keepDir_props {ig : List String} {c : FSTree} (hk : keepDir ig c = true) :
    c.name ∉ ig ∧ isHiddenName c.name = false := by
  unfold keepDir at hk
  rw [Bool.and_eq_true, Bool.not_eq_true', Bool.not_eq_true'] at hk
  obtain ⟨h1, h2⟩ := hk
  simp at h1
  exact ⟨h1, h2⟩

theorem walk_shape_aux (ig : List String) (k : Nat) :
    ∀ (t : FSTree), sizeOf t ≤ k → ∀ (pre p : List String), p ∈ walk ig pre t →
      ∃ suf, p = pre ++ t.name :: suf
        ∧ ∀ c ∈ suf, c ∉ ig ∧ isHiddenName c = false := by
  induction k with
  | zero =>
    intro t ht
    obtain ⟨n, subs⟩ := t
    simp [FSTree.node.sizeOf_spec] at ht
  | succ k ih =>
    intro t ht pre p hp
    obtain ⟨n, subs⟩ := t
    simp only [walk] at hp
    rcases List.mem_cons.mp hp with h | h
    · exact ⟨[], by simp [h, FSTree.name], by simp⟩
    · obtain ⟨c, hc, hkc, hpc⟩ := (mem_walkList ig (pre ++ [n]) subs p).mp h
      have hsz : sizeOf c ≤ k := by
        have h1 := List.sizeOf_lt_of_mem hc
        simp only [FSTree.node.sizeOf_spec] at ht
        omega
      obtain ⟨suf, hpe, hsuf⟩ := ih c hsz (pre ++ [n]) p hpc
      refine ⟨c.name :: suf, ?_, ?_⟩
      · rw [hpe]
        simp [FSTree.name]
      · intro x hx
        rcases List.mem_cons.mp hx with rfl | hx'
        · exact keepDir_props hkc
        · exact hsuf x hx'

/-- Every path the walk visits extends its start by the root's name and
then only names that are neither ignored nor hidden. -/
theorem walk_shape (ig : List String) (t : FSTree) (pre p : List String)
    (hp : p ∈ walk ig pre t) :
    ∃ suf, p = pre ++ t.name :: suf
      ∧ ∀ c ∈ suf, c ∉ ig ∧ isHiddenName c = false :=
  walk_shape_aux ig (sizeOf t) t (le_refl _) pre p hp

/-- Every chain of enterable subdirectories is visited by the walk. -/
theorem chain_visited {ig : List String} {t : FSTree} {chain : List String}
    (h : ChainOk ig t chain) : ∀ pre, (pre ++ t.name :: chain) ∈ walk ig pre t := by
  induction h with
  | @nil t =>
    intro pre
    obtain ⟨n, subs⟩ := t
    simp [walk, FSTree.name]
  | @cons t c rest hc hk hrest ih =>
    intro pre
    obtain ⟨n, subs⟩ := t
    simp only [walk, FSTree.name]
    refine List.mem_cons_of_mem _ ?_
    rw [mem_walkList]
    refine ⟨c, hc, hk, ?_⟩
    have hmem := ih (pre ++ [n])
    simpa [FSTree.name] using hmem

/-- C8: for every walk with an ignore list, every visited path below the
root consists only of names outside the ignore list (an ignored
subdirectory and everything beneath it is skipped), every chain of
non-ignored subdirectories is visited, and concretely a tree with
subdirectories plugin/ and ignore/ walked with ignore list ["ignore"]
visits plugin/ and nothing of ignore/. -/
theorem C8_ignored_dirs_skipped :
    (∀ (ig pre p : List String) (t : FSTree), p ∈ walk ig pre t →
      ∃ suf, p = pre ++ t.name :: suf
        ∧ ∀ c ∈ suf, c ∉ ig ∧ isHiddenName c = false)
    ∧ (∀ (ig : List String) (t : FSTree) (chain : List String),
        ChainOk ig t chain → ∀ pre, (pre ++ t.name :: chain) ∈ walk ig pre t)
    ∧ walk ["ignore"] []
        (.node "root" [.node "plugin" [], .node "ignore" [.node "sub" []]])
        = [["root"], ["root", "plugin"]]
    ∧ ["root", "plugin"] ∈ walk ["ignore"] []
        (.node "root" [.node "plugin" [], .node "ignore" [.node "sub" []]])
    ∧ ["root", "ignore"] ∉ walk ["ignore"] []
        (.node "root" [.node "plugin" [], .node "ignore" [.node "sub" []]])
    ∧ ["root", "ignore", "sub"] ∉ walk ["ignore"] []
        (.node "root" [.node "plugin" [], .node "ignore" [.node "sub" []]]) := by
  refine ⟨fun ig pre p t hp => walk_shape ig t pre p hp,
          fun ig t chain h pre => chain_visited h pre, ?_, ?_, ?_, ?_⟩
  all_goals simp [walk, walkList, keepDir, FSTree.name, isHiddenName]

/-- Witness for C8: the non-ignored chain root/plugin is visited. -/
theorem C8_ignored_dirs_skipped_witness :
    ([] ++ (FSTree.node "root"
        [.node "plugin" [], .node "ignore" [.node "sub" []]]).name :: ["plugin"])
      ∈ walk ["ignore"] []
        (FSTree.node "root" [.node "plugin" [], .node "ignore" [.node "sub" []]]) :=
  C8_ignored_dirs_skipped.2.1 ["ignore"] _ ["plugin"]
    (@ChainOk.cons ["ignore"]
      (FSTree.node "root" [.node "plugin" [], .node "ignore" [.node "sub" []]])
      (FSTree.node "plugin" []) []
      (List.mem_cons_self _ _) (by decide) ChainOk.nil) []

/-! ## Scheduler lemmas -/

theorem find?_cons_eq {α : Type} (p : α → Bool) (a : α) (l : List α) :
    (a :: l).find? p = if p a = true then some a else l.find? p := by
  cases hpa : p a <;> simp [List.find?_cons, hpa]

theorem find_entry_map (l : List JobEntry) (i j : Nat) (f : JobEntry → JobEntry)
    (hid : ∀ e, (f e).id = e.id) :
    (l.map (fun e => if e.id == i then f e else e)).find? (fun e => e.id == j)
      = if j = i then (l.find? (fun e => e.id == i)).map f
        else l.find? (fun e => e.id == j) := by
  induction l with
  | nil => by_cases hj : j = i <;> simp [hj]
  | cons e l ih =>
    simp only [List.map_cons]
    by_cases hei : e.id = i
    · have hbe : (e.id == i) = true := beq_iff_eq.mpr hei
      rw [if_pos hbe]
      by_cases hji : j = i
      · subst hji
        have hf : ((f e).id == j) = true := beq_iff_eq.mpr (by rw [hid e]; exact hei)
        rw [if_pos rfl, find?_cons_eq, if_pos hf, find?_cons_eq, if_pos hbe]
        rfl
      · have hf : ((f e).id == j) = false := by
          rw [hid e, hei]
          exact beq_eq_false_iff_ne.mpr (fun h => hji h.symm)
        have he : (e.id == j) = false := by
          rw [hei]
          exact beq_eq_false_iff_ne.mpr (fun h => hji h.symm)
        rw [find?_cons_eq, if_neg (by simp [hf]), if_neg hji, find?_cons_eq,
          if_neg (by simp [he])]
        rw [if_neg hji] at ih
        exact ih
    · have hbe : (e.id == i) = false := beq_eq_false_iff_ne.mpr hei
      rw [if_neg (by simp [hbe])]
      by_cases hji : j = i
      · subst hji
        rw [if_pos rfl, find?_cons_eq, if_neg (by simp [hbe]), find?_cons_eq,
          if_neg (by simp [hbe])]
        rw [if_pos rfl] at ih
        exact ih
      · by_cases hej : e.id = j
        · have he : (e.id == j) = true := beq_iff_eq.mpr hej
          rw [if_neg hji, find?_cons_eq, if_pos he, find?_cons_eq, if_pos he]
        · have he : (e.id == j) = false := beq_eq_false_iff_ne.mpr hej
          rw [if_neg hji, find?_cons_eq, if_neg (by simp [he]), find?_cons_eq,
            if_neg (by simp [he])]
          rw [if_neg hji] at ih
          exact ih

theorem lookupJob_setEntry (s : Sched) (i j : Nat) (f : JobEntry → JobEntry)
    (hid : ∀ e, (f e).id = e.id) :
    lookupJob (setEntry s i f) j
      = if j = i then (lookupJob s i).map f else lookupJob s j :=
  find_entry_map s.entries i j f hid

theorem lookupJob_tick (s : Sched) (j : Nat) : lookupJob (tick s) j = lookupJob s j := rfl

theorem startJob_id (c : Nat) (e : JobEntry) : (startJob c e).id = e.id := rfl

theorem finishJob_id (c : Nat) (e : JobEntry) : (finishJob c e).id = e.id := rfl

theorem propagateJob_id (e : JobEntry) : (propagateJob e).id = e.id := rfl

theorem find?_append_some {α : Type} {p : α → Bool} {l₁ l₂ : List α} {e : α}
    (h : l₁.find? p = some e) : (l₁ ++ l₂).find? p = some e := by
  induction l₁ with
  | nil => simp [List.find?] at h
  | cons a l ih =>
    rw [find?_cons_eq] at h
    rw [List.cons_append, find?_cons_eq]
    by_cases hp : p a = true
    · rw [if_pos hp] at h ⊢
      exact h
    · rw [if_neg hp] at h ⊢
      exact ih h

theorem find?_append_none {α : Type} {p : α → Bool} {l₁ l₂ : List α}
    (h : l₁.find? p = none) : (l₁ ++ l₂).find? p = l₂.find? p := by
  induction l₁ with
  | nil => simp
  | cons a l ih =>
    rw [find?_cons_eq] at h
    rw [List.cons_append, find?_cons_eq]
    by_cases hp : p a = true
    · rw [if_pos hp] at h
      exact absurd h (by simp)
    · rw [if_neg hp] at h ⊢
      exact ih h

theorem enqueue_ok {s : Sched} {deps : List Nat} {p : Nat} {b : Bool} {i : Nat}
    (h : (enqueue s deps p b).2 = .ok i) :
    i = s.nextId
    ∧ (enqueue s deps p b).1
        = ⟨s.entries ++ [⟨s.nextId, deps, p, b, .queued, none, none⟩],
            s.nextId + 1, s.clock⟩
    ∧ deps.all (fun d => (lookupJob s d).isSome) = true := by
  unfold enqueue at h ⊢
  by_cases h1 : deps.all (fun d => (lookupJob s d).isSome) = true
  · rw [if_pos h1] at h ⊢
    by_cases h2 : acyclicCheck (depGraph s deps) = true
    · rw [if_pos h2] at h ⊢
      exact ⟨(Except.ok.inj h).symm, rfl, h1⟩
    · rw [if_neg h2] at h
      exact absurd h (by simp)
  · rw [if_neg h1] at h
    exact absurd h (by simp)

theorem lookupJob_enqueue_preserved {s : Sched} {deps : List Nat} {p : Nat}
    {b : Bool} {i j : Nat} {e : JobEntry}
    (hok : (enqueue s deps p b).2 = .ok i) (h : lookupJob s j = some e) :
    lookupJob (enqueue s deps p b).1 j = some e := by
  obtain ⟨-, hshape, -⟩ := enqueue_ok hok
  rw [hshape]
  exact find?_append_some h

theorem lookupJob_enqueue_cases {s : Sched} {deps : List Nat} {p : Nat}
    {b : Bool} {i j : Nat} {e' : JobEntry}
    (hok : (enqueue s deps p b).2 = .ok i)
    (h : lookupJob (enqueue s deps p b).1 j = some e') :
    lookupJob s j = some e'
    ∨ (e' = ⟨s.nextId, deps, p, b, .queued, none, none⟩ ∧ lookupJob s j = none) := by
  obtain ⟨-, hshape, -⟩ := enqueue_ok hok
  rw [hshape] at h
  show lookupJob s j = some e' ∨ _
  unfold lookupJob at h ⊢
  cases hf : s.entries.find? (fun e => e.id == j) with
  | some e0 =>
    rw [find?_append_some hf] at h
    exact Or.inl h
  | none =>
    rw [find?_append_none hf, find?_cons_eq] at h
    by_cases hid : ((⟨s.nextId, deps, p, b, .queued, none, none⟩ : JobEntry).id == j) = true
    · rw [if_pos hid] at h
      exact Or.inr ⟨(Option.some.inj h).symm, rfl⟩
    · rw [if_neg hid] at h
      simp [List.find?] at h

theorem depsDone_spec {s : Sched} {ds : List Nat} (h : depsDone s ds = true) :
    ∀ d ∈ ds, ∃ a, lookupJob s d = some a ∧ a.state = .done := by
  intro d hd
  have hx := List.all_eq_true.mp h d hd
  cases hl : lookupJob s d with
  | none => rw [hl] at hx; simp at hx
  | some a =>
    rw [hl] at hx
    simp only [beq_iff_eq] at hx
    exact ⟨a, rfl, hx⟩

theorem hasFailedDep_intro {s : Sched} {ds : List Nat} {a : Nat} {ea : JobEntry}
    (ha : a ∈ ds) (hl : lookupJob s a = some ea)
    (he : ea.state = .errored ∨ ea.state = .cancelled) :
    hasFailedDep s ds = true := by
  unfold hasFailedDep
  rw [List.any_eq_true]
  refine ⟨a, ha, ?_⟩
  rw [hl]
  rcases he with h | h <;> simp [h]

/-- Transfers the invariant of an entry that a step did not modify to
the post-state, given that the modified entry was not Done. -/
theorem entryInv_transfer {s : Sched} {i : Nat} {f : JobEntry → JobEntry} {e0 : JobEntry}
    (h0 : lookupJob s i = some e0) (hnd : e0.state ≠ .done)
    {s' : Sched}
    (hlook : ∀ j, lookupJob s' j
      = if j = i then (lookupJob s i).map f else lookupJob s j)
    (hclock : s.clock ≤ s'.clock)
    {e' : JobEntry} (hEI : EntryInv s e') : EntryInv s' e' := by
  obtain ⟨c1, c2, c3, c4, c5⟩ := hEI
  refine ⟨?_, ?_, c3, c4, ?_⟩
  · intro hdone
    obtain ⟨u, hu, hlt⟩ := c1 hdone
    exact ⟨u, hu, lt_of_lt_of_le hlt hclock⟩
  · intro t ht
    obtain ⟨htc, hdeps⟩ := c2 t ht
    refine ⟨lt_of_lt_of_le htc hclock, ?_⟩
    intro d hd
    obtain ⟨a, ha, hast, u, hu, hule⟩ := hdeps d hd
    refine ⟨a, ?_, hast, u, hu, hule⟩
    rw [hlook d]
    by_cases hdi : d = i
    · subst hdi
      exact absurd ((Option.some.inj (ha.symm.trans h0)) ▸ hast) hnd
    · rw [if_neg hdi]
      exact ha
  · intro d hd
    obtain ⟨a, ha⟩ := c5 d hd
    rw [hlook d]
    by_cases hdi : d = i
    · subst hdi
      rw [if_pos rfl, h0]
      exact ⟨f e0, rfl⟩
    · rw [if_neg hdi]
      exact ⟨a, ha⟩

theorem schedInv_empty : SchedInv emptySched := by
  intro i e h
  simp [lookupJob, emptySched] at h

theorem schedInv_enqueue {s : Sched} {deps : List Nat} {p : Nat} {b : Bool} {i : Nat}
    (hInv : SchedInv s) (hok : (enqueue s deps p b).2 = .ok i) :
    SchedInv (enqueue s deps p b).1 := by
  intro j e' hj
  rcases lookupJob_enqueue_cases hok hj with hold | ⟨hnew, -⟩
  · obtain ⟨c1, c2, c3, c4, c5⟩ := hInv j e' hold
    obtain ⟨-, hshape, -⟩ := enqueue_ok hok
    refine ⟨?_, ?_, c3, c4, ?_⟩
    · intro hdone
      obtain ⟨u, hu, hlt⟩ := c1 hdone
      refine ⟨u, hu, ?_⟩
      rw [hshape]
      exact hlt
    · intro t ht
      obtain ⟨htc, hdeps⟩ := c2 t ht
      refine ⟨by rw [hshape]; exact htc, ?_⟩
      intro d hd
      obtain ⟨a, ha, hast, u, hu, hule⟩ := hdeps d hd
      exact ⟨a, lookupJob_enqueue_preserved hok ha, hast, u, hu, hule⟩
    · intro d hd
      obtain ⟨a, ha⟩ := c5 d hd
      exact ⟨a, lookupJob_enqueue_preserved hok ha⟩
  · subst hnew
    obtain ⟨-, -, hall⟩ := enqueue_ok hok
    refine ⟨by simp, by simp, by simp, by simp, ?_⟩
    intro d hd
    have hsome := List.all_eq_true.mp hall d hd
    simp only at hsome
    obtain ⟨a, ha⟩ := Option.isSome_iff_exists.mp hsome
    exact ⟨a, lookupJob_enqueue_preserved hok ha⟩

theorem schedInv_step {s s' : Sched} (hInv : SchedInv s) (hstep : ExecStep s s') :
    SchedInv s' := by
  cases hstep with
  | @start i e0 h0 hq hdd =>
    have hid : ∀ e : JobEntry, (startJob s.clock e).id = e.id := fun e => rfl
    have hnd : e0.state ≠ .done := by rw [hq]; simp
    have hlook : ∀ j, lookupJob (tick (setEntry s i (startJob s.clock))) j
        = if j = i then (lookupJob s i).map (startJob s.clock) else lookupJob s j := by
      intro j
      rw [lookupJob_tick, lookupJob_setEntry s i j _ hid]
    have hclock : s.clock ≤ (tick (setEntry s i (startJob s.clock))).clock :=
      Nat.le_succ _
    intro j e' hj
    rw [hlook j] at hj
    by_cases hji : j = i
    · rw [if_pos hji, h0] at hj
      have he' : e' = startJob s.clock e0 := (Option.some.inj hj).symm
      subst he'
      refine ⟨by simp [startJob], ?_, by simp [startJob], by simp [startJob], ?_⟩
      · intro t ht
        have ht' : s.clock = t := Option.some.inj ht
        subst ht'
        refine ⟨Nat.lt_succ_self _, ?_⟩
        intro d hd
        have hd0 : d ∈ e0.deps := hd
        obtain ⟨a, ha, hadone⟩ := depsDone_spec hdd d hd0
        have hdi : d ≠ i := by
          intro hdi
          subst hdi
          have hae : a = e0 := Option.some.inj (ha.symm.trans h0)
          rw [hae, hq] at hadone
          exact absurd hadone (by simp)
        refine ⟨a, by rw [hlook d, if_neg hdi]; exact ha, hadone, ?_⟩
        obtain ⟨c1a, -, -, -, -⟩ := hInv d a ha
        obtain ⟨u, hu, hult⟩ := c1a hadone
        exact ⟨u, hu, Nat.le_of_lt hult⟩
      · intro d hd
        have hd0 : d ∈ e0.deps := hd
        obtain ⟨-, -, -, -, c5⟩ := hInv i e0 h0
        obtain ⟨a, ha⟩ := c5 d hd0
        by_cases hdi : d = i
        · subst hdi
          rw [hlook d, if_pos rfl, h0]
          exact ⟨startJob s.clock e0, rfl⟩
        · rw [hlook d, if_neg hdi]
          exact ⟨a, ha⟩
    · rw [if_neg hji] at hj
      exact entryInv_transfer h0 hnd hlook hclock (hInv j e' hj)
  | @finish i e0 h0 hr =>
    have hid : ∀ e : JobEntry, (finishJob s.clock e).id = e.id := fun e => rfl
    have hnd : e0.state ≠ .done := by rw [hr]; simp
    have hlook : ∀ j, lookupJob (tick (setEntry s i (finishJob s.clock))) j
        = if j = i then (lookupJob s i).map (finishJob s.clock) else lookupJob s j := by
      intro j
      rw [lookupJob_tick, lookupJob_setEntry s i j _ hid]
    have hclock : s.clock ≤ (tick (setEntry s i (finishJob s.clock))).clock :=
      Nat.le_succ _
    intro j e' hj
    rw [hlook j] at hj
    by_cases hji : j = i
    · rw [if_pos hji, h0] at hj
      have he' : e' = finishJob s.clock e0 := (Option.some.inj hj).symm
      subst he'
      refine ⟨?_, ?_, ?_, ?_, ?_⟩
      · intro _
        exact ⟨s.clock, rfl, Nat.lt_succ_self _⟩
      · intro t ht
        have ht0 : e0.runStart = some t := ht
        obtain ⟨-, c2, -, -, -⟩ := hInv i e0 h0
        obtain ⟨htc, hdeps⟩ := c2 t ht0
        refine ⟨Nat.lt_succ_of_lt htc, ?_⟩
        intro d hd
        have hd0 : d ∈ e0.deps := hd
        obtain ⟨a, ha, hast, u, hu, hule⟩ := hdeps d hd0
        have hdi : d ≠ i := by
          intro hdi
          subst hdi
          exact absurd ((Option.some.inj (ha.symm.trans h0)) ▸ hast) hnd
        exact ⟨a, by rw [hlook d, if_neg hdi]; exact ha, hast, u, hu, hule⟩
      · intro _
        obtain ⟨-, -, c3, -, -⟩ := hInv i e0 h0
        exact c3 (Or.inr hr)
      · cases hsucc : e0.succeeds <;> simp [finishJob, hsucc]
      · intro d hd
        have hd0 : d ∈ e0.deps := hd
        obtain ⟨-, -, -, -, c5⟩ := hInv i e0 h0
        obtain ⟨a, ha⟩ := c5 d hd0
        by_cases hdi : d = i
        · subst hdi
          rw [hlook d, if_pos rfl, h0]
          exact ⟨finishJob s.clock e0, rfl⟩
        · rw [hlook d, if_neg hdi]
          exact ⟨a, ha⟩
    · rw [if_neg hji] at hj
      exact entryInv_transfer h0 hnd hlook hclock (hInv j e' hj)
  | @propagate i e0 h0 hq hfd =>
    have hid : ∀ e : JobEntry, (propagateJob e).id = e.id := fun e => rfl
    have hnd : e0.state ≠ .done := by rw [hq]; simp
    have hlook : ∀ j, lookupJob (setEntry s i propagateJob) j
        = if j = i then (lookupJob s i).map propagateJob else lookupJob s j := by
      intro j
      rw [lookupJob_setEntry s i j _ hid]
    have hclock : s.clock ≤ (setEntry s i propagateJob).clock := le_refl _
    intro j e' hj
    rw [hlook j] at hj
    by_cases hji : j = i
    · rw [if_pos hji, h0] at hj
      have he' : e' = propagateJob e0 := (Option.some.inj hj).symm
      subst he'
      refine ⟨by simp [propagateJob], ?_, by simp [propagateJob], by simp [propagateJob], ?_⟩
      · intro t ht
        have ht0 : e0.runStart = some t := ht
        obtain ⟨-, c2, -, -, -⟩ := hInv i e0 h0
        obtain ⟨htc, hdeps⟩ := c2 t ht0
        refine ⟨htc, ?_⟩
        intro d hd
        have hd0 : d ∈ e0.deps := hd
        obtain ⟨a, ha, hast, u, hu, hule⟩ := hdeps d hd0
        have hdi : d ≠ i := by
          intro hdi
          subst hdi
          exact absurd ((Option.some.inj (ha.symm.trans h0)) ▸ hast) hnd
        exact ⟨a, by rw [hlook d, if_neg hdi]; exact ha, hast, u, hu, hule⟩
      · intro d hd
        have hd0 : d ∈ e0.deps := hd
        obtain ⟨-, -, -, -, c5⟩ := hInv i e0 h0
        obtain ⟨a, ha⟩ := c5 d hd0
        by_cases hdi : d = i
        · subst hdi
          rw [hlook d, if_pos rfl, h0]
          exact ⟨propagateJob e0, rfl⟩
        · rw [hlook d, if_neg hdi]
          exact ⟨a, ha⟩
    · rw [if_neg hji] at hj
      exact entryInv_transfer h0 hnd hlook hclock (hInv j e' hj)

theorem schedInv_reach {s0 s : Sched} (h0 : SchedInv s0) (h : Reach s0 s) :
    SchedInv s := by
  induction h with
  | refl => exact h0
  | enq _ hok ih => exact schedInv_enqueue ih hok
  | step _ hs ih => exact schedInv_step ih hs

theorem demo_reach : Reach emptySched demoS6 :=
  Reach.step
    (Reach.step
      (Reach.step
        (Reach.step
          (@Reach.enq emptySched demoS1 [0] 1 true 1
            (@Reach.enq emptySched emptySched [] 1 true 0 Reach.refl (by decide))
            (by decide))
          (@ExecStep.start demoS2 0 ⟨0, [], 1, true, .queued, none, none⟩
            (by decide) (by decide) (by decide)))
        (@ExecStep.finish demoS3 0 ⟨0, [], 1, true, .running, some 0, none⟩
          (by decide) (by decide)))
      (@ExecStep.start demoS4 1 ⟨1, [0], 1, true, .queued, none, none⟩
        (by decide) (by decide) (by decide)))
    (@ExecStep.finish demoS5 1 ⟨1, [0], 1, true, .running, some 2, none⟩
      (by decide) (by decide))

theorem fail_reach : Reach emptySched failS7 :=
  Reach.step
    (Reach.step
      (Reach.step
        (Reach.step
          (@Reach.enq emptySched failS2 [1] 1 true 2
            (@Reach.enq emptySched failS1 [0] 1 true 1
              (@Reach.enq emptySched emptySched [] 1 false 0 Reach.refl (by decide))
              (by decide))
            (by decide))
          (@ExecStep.start failS3 0 ⟨0, [], 1, false, .queued, none, none⟩
            (by decide) (by decide) (by decide)))
        (@ExecStep.finish failS4 0 ⟨0, [], 1, false, .running, some 0, none⟩
          (by decide) (by decide)))
      (@ExecStep.propagate failS5 1 ⟨1, [0], 1, true, .queued, none, none⟩
        (by decide) (by decide) (by decide)))
    (@ExecStep.propagate failS6 2 ⟨2, [1], 1, true, .queued, none, none⟩
      (by decide) (by decide) (by decide))

theorem isFinal_spec {s : Sched} (h : isFinal s = true) {j : Nat} {e : JobEntry}
    (hj : lookupJob s j = some e) :
    e.state ≠ .running ∧ (e.state = .queued → hasFailedDep s e.deps = false) := by
  have hmem : e ∈ s.entries := List.mem_of_find?_eq_some hj
  have hx := List.all_eq_true.mp h e hmem
  simp only [Bool.and_eq_true, Bool.not_eq_true'] at hx
  constructor
  · intro he
    rw [he] at hx
    simp at hx
  · intro he
    obtain ⟨-, h2⟩ := hx
    rw [he] at h2
    simp at h2
    exact h2.2

/-- In a quiescent scheduler a job with a failed dependency never ran
and is Errored. -/
theorem dep_failed_final {s : Sched} (hInv : SchedInv s) (hfin : isFinal s = true)
    {b a : Nat} {eb ea : JobEntry}
    (hb : lookupJob s b = some eb) (hd : a ∈ eb.deps)
    (ha : lookupJob s a = some ea)
    (hfail : ea.state = .errored ∨ ea.state = .cancelled) :
    eb.runStart = none ∧ eb.state = .errored := by
  have hnotdone : ea.state ≠ .done := by
    rcases hfail with h | h <;> rw [h] <;> simp
  have hrs : eb.runStart = none := by
    cases hrse : eb.runStart with
    | none => rfl
    | some t =>
      obtain ⟨-, c2, -, -, -⟩ := hInv b eb hb
      obtain ⟨-, hdeps⟩ := c2 t hrse
      obtain ⟨a', ha', hast, -⟩ := hdeps a hd
      have hae : a' = ea := Option.some.inj (ha'.symm.trans ha)
      exact absurd (hae ▸ hast) hnotdone
  refine ⟨hrs, ?_⟩
  obtain ⟨-, -, c3, c4, -⟩ := hInv b eb hb
  obtain ⟨hnr, hq⟩ := isFinal_spec hfin hb
  have hfd : hasFailedDep s eb.deps = true := hasFailedDep_intro hd ha hfail
  cases hstate : eb.state with
  | queued =>
    have h2 := hq hstate
    rw [h2] at hfd
    exact absurd hfd (by simp)
  | running => exact absurd hstate hnr
  | done =>
    have h3 := c3 (Or.inl hstate)
    rw [hrs] at h3
    simp at h3
  | errored => rfl
  | cancelled => exact absurd hstate c4

/-! ## WaitForJobs lemmas -/

theorem mem_closureIter_of_mem (s : Sched) :
    ∀ (fuel : Nat) (acc : List Nat) (a : Nat), a ∈ acc → a ∈ closureIter s fuel acc := by
  intro fuel
  induction fuel with
  | zero => intro acc a h; exact h
  | succ n ih => intro acc a h; exact ih _ _ (List.mem_append_left _ h)

theorem mem_fold_deps {s : Sched} {acc : List Nat} {x : Nat}
    (h : x ∈ acc.foldr (fun i r => depsOf s i ++ r) []) :
    ∃ i ∈ acc, x ∈ depsOf s i := by
  induction acc with
  | nil => simp at h
  | cons a l ih =>
    rcases List.mem_append.mp h with h1 | h2
    · exact ⟨a, List.mem_cons_self _ _, h1⟩
    · obtain ⟨i, hi, hx⟩ := ih h2
      exact ⟨i, List.mem_cons_of_mem _ hi, hx⟩

theorem mem_fold_deps_intro {s : Sched} {acc : List Nat} {i d : Nat}
    (hi : i ∈ acc) (hd : d ∈ depsOf s i) :
    d ∈ acc.foldr (fun i r => depsOf s i ++ r) [] := by
  induction acc with
  | nil => simp at hi
  | cons a l ih =>
    rcases List.mem_cons.mp hi with rfl | h
    · exact List.mem_append_left _ hd
    · exact List.mem_append_right _ (ih h)

theorem closureIter_sound {s : Sched} {ids : List Nat} :
    ∀ (fuel : Nat) (acc : List Nat), (∀ x ∈ acc, InClosure s ids x) →
      ∀ x ∈ closureIter s fuel acc, InClosure s ids x := by
  intro fuel
  induction fuel with
  | zero => intro acc hacc x hx; exact hacc x hx
  | succ n ih =>
    intro acc hacc x hx
    refine ih _ ?_ x hx
    intro y hy
    rcases List.mem_append.mp hy with h1 | h2
    · exact hacc y h1
    · obtain ⟨hyf, -⟩ := List.mem_filter.mp h2
      obtain ⟨i, hi, hdep⟩ := mem_fold_deps hyf
      exact InClosure.dep (hacc i hi) hdep

theorem closureList_sound {s : Sched} {ids : List Nat} :
    ∀ x ∈ closureList s ids, InClosure s ids x :=
  fun x hx => closureIter_sound _ _ (fun _ hy => InClosure.base hy) x hx

theorem stable_closed {s : Sched} {acc : List Nat}
    (h : closureStep s acc = acc) :
    ∀ i ∈ acc, ∀ d ∈ depsOf s i, d ∈ acc := by
  unfold closureStep at h
  have hlen := congrArg List.length h
  rw [List.length_append] at hlen
  have hnil : (acc.foldr (fun i r => depsOf s i ++ r) []).filter
      (fun d => !acc.contains d) = [] :=
    List.length_eq_zero.mp (by omega)
  intro i hi d hd
  by_contra hn
  have hmem : d ∈ acc.foldr (fun i r => depsOf s i ++ r) [] :=
    mem_fold_deps_intro hi hd
  have hd' : d ∈ (acc.foldr (fun i r => depsOf s i ++ r) []).filter
      (fun d => !acc.contains d) :=
    List.mem_filter.mpr ⟨hmem, by simpa using hn⟩
  rw [hnil] at hd'
  simp at hd'

theorem inClosure_mem {s : Sched} {ids : List Nat}
    (hstable : closureStep s (closureList s ids) = closureList s ids) :
    ∀ x, InClosure s ids x → x ∈ closureList s ids := by
  intro x hx
  induction hx with
  | base h => exact mem_closureIter_of_mem s _ _ _ h
  | dep _ hd ih => exact stable_closed hstable _ ih _ hd

/-! ## Claim theorems: job scheduler -/

/-- C1: in every reachable scheduler state, whenever job B depends on
job A and B has a Running-start timestamp, A is Done and its Done
timestamp is not later than B's start; and in the concrete two-job run
(A without dependencies, B depending on A) both end Done with
A.DoneTime = 1 at or before B.RunStartTime = 2. -/
theorem C1_dependency_ordering :
    (∀ s : Sched, Reach emptySched s →
      ∀ (i j : Nat) (ei ej : JobEntry) (t u : Nat),
        lookupJob s j = some ej → i ∈ ej.deps →
        ej.runStart = some t → lookupJob s i = some ei → ei.doneTime = some u →
        ei.state = .done ∧ u ≤ t)
    ∧ Reach emptySched demoS6
    ∧ lookupJob demoS6 0 = some ⟨0, [], 1, true, .done, some 0, some 1⟩
    ∧ lookupJob demoS6 1 = some ⟨1, [0], 1, true, .done, some 2, some 3⟩ := by
  refine ⟨?_, demo_reach, by decide, by decide⟩
  intro s hreach i j ei ej t u hj hdep hrs hi hdt
  have hInv := schedInv_reach schedInv_empty hreach
  obtain ⟨-, c2, -, -, -⟩ := hInv j ej hj
  obtain ⟨-, hdeps⟩ := c2 t hrs
  obtain ⟨a, ha, hast, u', hu', hule⟩ := hdeps i hdep
  have hae : a = ei := Option.some.inj (ha.symm.trans hi)
  subst hae
  have huu : u' = u := by
    rw [hu'] at hdt
    exact Option.some.inj hdt
  exact ⟨hast, huu ▸ hule⟩

/-- Witness for C1 instantiated on the concrete two-job run. -/
theorem C1_dependency_ordering_witness :
    (⟨0, [], 1, true, .done, some 0, some 1⟩ : JobEntry).state = .done
    ∧ (1 : Nat) ≤ 2 :=
  C1_dependency_ordering.1 demoS6 demo_reach 0 1
    ⟨0, [], 1, true, .done, some 0, some 1⟩ ⟨1, [0], 1, true, .done, some 2, some 3⟩
    2 1 (by decide) (by decide) (by decide) (by decide) (by decide)

/-- C2: in every reachable quiescent scheduler state, a job that
transitively depends on a job ending Errored or Cancelled never
acquired a Running start (its payload never executed) and itself ends
Errored; the concrete run A(fails) <- B <- C ends with B and C Errored
and never run. -/
theorem C2_failure_propagation :
    (∀ s : Sched, Reach emptySched s → isFinal s = true →
      ∀ b a : Nat, DependsOn s b a →
        ∀ ea : JobEntry, lookupJob s a = some ea →
          (ea.state = .errored ∨ ea.state = .cancelled) →
          ∀ eb : JobEntry, lookupJob s b = some eb →
            eb.runStart = none ∧ eb.state = .errored)
    ∧ Reach emptySched failS7
    ∧ isFinal failS7 = true
    ∧ lookupJob failS7 0 = some ⟨0, [], 1, false, .errored, some 0, some 1⟩
    ∧ lookupJob failS7 1 = some ⟨1, [0], 1, true, .errored, none, none⟩
    ∧ lookupJob failS7 2 = some ⟨2, [1], 1, true, .errored, none, none⟩ := by
  refine ⟨?_, fail_reach, by decide, by decide, by decide, by decide⟩
  intro s hreach hfin b a hdep
  have hInv := schedInv_reach schedInv_empty hreach
  induction hdep with
  | @direct b' a' eb' hb' hd' =>
    intro ea ha hfail eb hb
    have hee : eb' = eb := Option.some.inj (hb'.symm.trans hb)
    subst hee
    exact dep_failed_final hInv hfin hb hd' ha hfail
  | @trans b' c a' eb' hb' hc hdep' ih =>
    intro ea ha hfail eb hb
    obtain ⟨-, -, -, -, c5⟩ := hInv b' eb' hb'
    obtain ⟨ec, hec⟩ := c5 c hc
    have hcprops := ih ea ha hfail ec hec
    have hee : eb' = eb := Option.some.inj (hb'.symm.trans hb)
    subst hee
    exact dep_failed_final hInv hfin hb hc hec (Or.inl hcprops.2)

/-- Witness for C2 instantiated on the concrete failing run. -/
theorem C2_failure_propagation_witness :
    (⟨2, [1], 1, true, .errored, none, none⟩ : JobEntry).runStart = none
    ∧ (⟨2, [1], 1, true, .errored, none, none⟩ : JobEntry).state = .errored :=
  C2_failure_propagation.1 failS7 fail_reach (by decide) 2 0
    (@DependsOn.trans failS7 2 1 0 ⟨2, [1], 1, true, .errored, none, none⟩
      (by decide) (by decide)
      (@DependsOn.direct failS7 1 0 ⟨1, [0], 1, true, .errored, none, none⟩
        (by decide) (by decide)))
    ⟨0, [], 1, false, .errored, some 0, some 1⟩ (by decide) (Or.inl rfl)
    ⟨2, [1], 1, true, .errored, none, none⟩ (by decide)

/-- C7: Enqueue with a dependency on an unknown job ID, or whose
resulting graph fails the acyclicity check, returns the corresponding
synchronous failure with the scheduler state unchanged (nothing
scheduled). -/
theorem C7_enqueue_validation :
    (∀ (s : Sched) (deps : List Nat) (p : Nat) (b : Bool) (d : Nat),
      d ∈ deps → lookupJob s d = none →
      enqueue s deps p b = (s, .error .unknownDependency))
    ∧ (∀ (s : Sched) (deps : List Nat) (p : Nat) (b : Bool),
      (∀ d ∈ deps, (lookupJob s d).isSome = true) →
      acyclicCheck (depGraph s deps) = false →
      enqueue s deps p b = (s, .error .dependencyCycle)) := by
  constructor
  · intro s deps p b d hd hnone
    have hall : ¬ (deps.all (fun d => (lookupJob s d).isSome) = true) := by
      intro hall
      have hx := List.all_eq_true.mp hall d hd
      simp only at hx
      rw [hnone] at hx
      simp at hx
    unfold enqueue
    rw [if_neg hall]
  · intro s deps p b hsome hcyc
    have hall : deps.all (fun d => (lookupJob s d).isSome) = true :=
      List.all_eq_true.mpr (fun d hd => hsome d hd)
    unfold enqueue
    rw [if_pos hall, if_neg (by simp [hcyc])]

/-- Witness for C7: an unknown dependency on the empty scheduler and a
cyclic two-job table. -/
theorem C7_enqueue_validation_witness :
    enqueue emptySched [5] 1 true = (emptySched, .error .unknownDependency)
    ∧ enqueue (⟨[⟨0, [1], 1, true, .queued, none, none⟩,
            ⟨1, [0], 1, true, .queued, none, none⟩], 2, 0⟩ : Sched) [0] 1 true
        = (⟨[⟨0, [1], 1, true, .queued, none, none⟩,
              ⟨1, [0], 1, true, .queued, none, none⟩], 2, 0⟩,
            .error .dependencyCycle) :=
  ⟨C7_enqueue_validation.1 emptySched [5] 1 true 5 (by decide) (by decide),
   C7_enqueue_validation.2 _ [0] 1 true (by decide) (by decide)⟩

/-- C3: whenever `WaitForJobs` returns (is no longer blocked), every
job in the transitive dependency closure of the watched set is
terminal, and the result is success exactly when every such job is
Done (otherwise a single aggregated failure is returned). -/
theorem C3_wait_completeness :
    ∀ (s : Sched) (ids : List Nat) (r : WaitRes), waitOutcome s ids = some r →
      (∀ j, InClosure s ids j → jobTerminal s j = true)
      ∧ (r = .ok ↔ ∀ j, InClosure s ids j → jobDone s j = true) := by
  intro s ids r h
  unfold waitOutcome at h
  by_cases hstable : closureStep s (closureList s ids) = closureList s ids
  case neg =>
    rw [if_neg hstable] at h
    simp at h
  rw [if_pos hstable] at h
  by_cases hterm : (closureList s ids).all (jobTerminal s) = true
  case neg =>
    rw [if_neg hterm] at h
    simp at h
  rw [if_pos hterm] at h
  have hr : r = if (closureList s ids).all (jobDone s) = true then WaitRes.ok
      else WaitRes.jobsFailed := (Option.some.inj h).symm
  constructor
  · intro j hj
    exact List.all_eq_true.mp hterm j (inClosure_mem hstable j hj)
  · constructor
    · intro hok j hj
      by_cases hdone : (closureList s ids).all (jobDone s) = true
      · exact List.all_eq_true.mp hdone j (inClosure_mem hstable j hj)
      · rw [if_neg hdone] at hr
        exact absurd (hr.symm.trans hok) (by simp)
    · intro hall
      have hdone : (closureList s ids).all (jobDone s) = true := by
        rw [List.all_eq_true]
        intro j hjmem
        exact hall j (closureList_sound j hjmem)
      rw [if_pos hdone] at hr
      exact hr

/-- Witness for C3 on the completed two-job run, watching job B. -/
theorem C3_wait_completeness_witness :
    (∀ j, InClosure demoS6 [1] j → jobTerminal demoS6 j = true)
    ∧ (WaitRes.ok = .ok ↔ ∀ j, InClosure demoS6 [1] j → jobDone demoS6 j = true) :=
  C3_wait_completeness demoS6 [1] .ok (by decide)

/-- C4: a wait whose context is cancelled returns the cancellation
failure to the caller and leaves the scheduler untouched — every job's
entry (state, timestamps) is exactly as before. -/
theorem C4_cancelled_wait_leaves_jobs :
    ∀ (s : Sched) (ids : List Nat),
      (waitForJobs true s ids).1 = some .ctxCancelled
      ∧ (waitForJobs true s ids).2 = s
      ∧ ∀ j, lookupJob (waitForJobs true s ids).2 j = lookupJob s j := by
  intro s ids
  exact ⟨rfl, rfl, fun j => rfl⟩

/-- Witness for the amended C6 on a concrete accepted update. -/
theorem C6_version_max_amended_witness :
    (Document.mk "b" "L" 1).version = maxFrom 0 [(1, "b")]
    ∧ (Document.mk "b" "L" 1).languageID = "L"
    ∧ (maxFrom 0 [(1, "b")] ≤ 0 → Document.mk "b" "L" 1 = ⟨"a", "L", 0⟩)
    ∧ ((0 : Int) < maxFrom 0 [(1, "b")] →
        firstTextAt (maxFrom 0 [(1, "b")]) [(1, "b")] = some "b") :=
  C6_version_max_amended.1 "u" "a" "L" 0 [(1, "b")] ⟨"b", "L", 1⟩ (by decide)
